import Mathlib

/-!
# Verification of the web-to-json markup-reduction engine

Shallow embedding of `src/main.rs` (riragon/web-to-json): the recursive
tag-filtering/flattening reduction (`parse_children` / `parse_html_sync`),
the table extraction (`parse_table`), the one-hop subpage expansion
(`fetch_subpages_for_depth_one`), the multi-URL batch driver
(`process_form`), and the text normalizer (`clean_text`).

External collaborators (the HTML parser `scraper::Html::parse_document`,
HTTP fetching via `reqwest`, and `Url::parse` / `Url::join`) are modelled
as oracle parameters; everything else is translated from the source.
-/

namespace WebToJson

/-! ## Parsed HTML tree (interface of the external parser)

`scraper` presents a parsed document as a tree whose nodes are elements
(tag name, attribute list in order, ordered children) or text.  Comment,
doctype and similar nodes are ignored by every code path we embed
(`parse_children` has a `_ => {}` arm), so the model omits them. -/

inductive HNode where
  | element (name : String) (attrs : List (String × String)) (children : List HNode)
  | text (content : String)
  deriving Repr

/-! ## Output data model (`DomContent` / `DomNode` / `TableData`)

`DomNode` is a Rust struct nested inside the `DomContent` enum; Lean's
nested-inductive restrictions make us inline its five fields as arguments
of the `node` constructor, in the declaration order of the struct:
`tag`, `href`, `text`, `children`, `link_subpage`.

A table record (`serde_json::Map`) is modelled as an association list
with insert-replaces-value semantics (`insertKV` below); the map's
alphabetical key order is irrelevant to every claim, the key → value
correspondence is preserved exactly. -/

structure TableData where
  table_headers : List String
  rows : List (List (String × String))
  deriving DecidableEq, Repr

inductive DomContent where
  | node (tag : Option String) (href : Option String) (text : Option String)
      (children : List DomContent) (link_subpage : Option DomContent)
  | table (data : TableData)
  deriving Repr

/-- `serde_json::Map::insert`: replace the value if the key is present,
otherwise add the binding. -/
def insertKV : List (String × String) → String → String → List (String × String)
  | [], k, v => [(k, v)]
  | (k0, v0) :: rest, k, v =>
      if k0 = k then (k0, v) :: rest else (k0, v0) :: insertKV rest k v

/-! ## Text normalisation (`clean_text`)

```rust
fn clean_text(raw: &str) -> String {
    let replaced = raw.replace('\n', " ");
    let re = Regex::new(r"\s+").unwrap();
    re.replace_all(&replaced, " ").trim().to_string()
}
```

Rust's regex `\s` and `str::trim` both use the Unicode `White_Space`
property; `rustIsWhitespace` lists that set.  The regex replacement of
every maximal whitespace run by a single `' '` is `collapseWs`; `trim`
is `trimLeft`/`trimRight`.  We work on `List Char` and wrap into
`String` at the boundary. -/

def rustIsWhitespace (c : Char) : Bool :=
  c = '\t' || c = '\n' || c = '\u000B' || c = '\u000C' || c = '\r' ||
  c = ' ' || c = '\u0085' || c = '\u00A0' || c = '\u1680' ||
  ('\u2000' ≤ c && c ≤ '\u200A') ||
  c = '\u2028' || c = '\u2029' || c = '\u202F' || c = '\u205F' || c = '\u3000'

/-- `Regex::new(r"\s+").replace_all(_, " ")`: every maximal run of
whitespace becomes one `' '` (the run's characters are dropped except
that a single space is emitted where the run ended). -/
def collapseWs : List Char → List Char
  | [] => []
  | [c] => if rustIsWhitespace c then [' '] else [c]
  | c1 :: c2 :: rest =>
      if rustIsWhitespace c1 && rustIsWhitespace c2 then
        collapseWs (c2 :: rest)
      else
        (if rustIsWhitespace c1 then ' ' else c1) :: collapseWs (c2 :: rest)

def trimLeft (l : List Char) : List Char := l.dropWhile rustIsWhitespace

def trimRight (l : List Char) : List Char :=
  (l.reverse.dropWhile rustIsWhitespace).reverse

/-- `clean_text` on character lists: replace `'\n'` by `' '`, collapse
whitespace runs, trim both ends. -/
def cleanList (l : List Char) : List Char :=
  trimRight (trimLeft (collapseWs (l.map (fun c => if c = '\n' then ' ' else c))))

def clean_text (raw : String) : String := String.mk (cleanList raw.data)

/-- Adjacent characters are never both whitespace: the shape left behind
by collapsing whitespace runs. -/
def wsChainR (a b : Char) : Prop :=
  rustIsWhitespace a = false ∨ rustIsWhitespace b = false

/-! ## Tag predicates -/

/-- `fn skip_tag(tag_name: &str) -> bool` (matches on the lowercased name). -/
def skip_tag (tag_name : String) : Bool :=
  tag_name = "script" || tag_name = "style" || tag_name = "meta" ||
  tag_name = "link" || tag_name = "noscript" ||
  tag_name = "svg" || tag_name = "iframe" ||
  tag_name = "nav" || tag_name = "footer" || tag_name = "header"

/-- `fn is_target_tag(tag_name: &str) -> bool`. -/
def is_target_tag (tag_name : String) : Bool :=
  tag_name = "h1" || tag_name = "h2" || tag_name = "h3" || tag_name = "h4" ||
  tag_name = "h5" || tag_name = "h6" ||
  tag_name = "p" ||
  tag_name = "ul" || tag_name = "ol" || tag_name = "li" ||
  tag_name = "a"

/-- `e.name().to_lowercase()`.  Rust's `to_lowercase` is the Unicode full
lowercase mapping; on the ASCII tag names every comparison in the source
uses it coincides with `Char.toLower`, which is what we use. -/
def lowerName (s : String) : String := String.mk (s.data.map Char.toLower)

/-- `attr_name.eq_ignore_ascii_case("href")`, specialised to `"href"`:
ASCII-fold both sides and compare. -/
def asciiLower (c : Char) : Char :=
  if 'A' ≤ c && c ≤ 'Z' then Char.ofNat (c.toNat + 32) else c

def eqIgnoreAsciiCaseHref (name : String) : Bool :=
  name.data.map asciiLower = "href".data

/-! ## Selector interface of the external parser

`ElementRef::select(sel)` iterates the element's descendants (itself
excluded) in document (pre-)order and yields those matching the
selector; `ElementRef::text()` concatenates all descendant text in
document order.  The selectors used by `parse_table` are plain tag-name
selectors (`"tr"`, `"th,td"`); the html5ever parser stores HTML tag
names lowercased, so matching is equality on the stored name. -/

mutual

/-- All element descendants of a node, itself included when it is an
element, in pre-order. -/
def preElems : HNode → List HNode
  | .text _ => []
  | .element name attrs cs => .element name attrs cs :: preElemsList cs

def preElemsList : List HNode → List HNode
  | [] => []
  | c :: cs => preElems c ++ preElemsList cs

end

/-- Element descendants of a node, excluding the node itself, pre-order:
what `ElementRef::select` iterates over. -/
def descElems : HNode → List HNode
  | .text _ => []
  | .element _ _ cs => preElemsList cs

/-- `sel.matches` for a tag-name selector. -/
def tagIs (t : String) : HNode → Bool
  | .element name _ _ => name = t
  | .text _ => false

/-- The `"th,td"` selector. -/
def isCell (n : HNode) : Bool := tagIs "th" n || tagIs "td" n

mutual

/-- `ElementRef::text().collect::<String>()`: concatenation of all
descendant text, in document order. -/
def textContent : HNode → String
  | .text s => s
  | .element _ _ cs => textContentList cs

def textContentList : List HNode → String
  | [] => ""
  | c :: cs => textContent c ++ textContentList cs

end

/-! ## Table extraction (`parse_table`) -/

/-- The cleaned cell texts of one `tr` element:
`tr_el.select(&td_sel)` then `clean_text` of each cell's full text. -/
def rowCells (tr : HNode) : List String :=
  ((descElems tr).filter isCell).map (fun c => clean_text (textContent c))

/-- One data-row record: `for (i, val) in cells.iter().enumerate()`
inserting under `headers[i]` when `i < headers.len()`, else `"col{i}"`. -/
def mkRow (headers : List String) (cells : List String) : List (String × String) :=
  cells.enum.foldl
    (fun m iv =>
      insertKV m (if iv.1 < headers.length then headers.getD iv.1 "" else "col" ++ toString iv.1) iv.2)
    []

/-- The fold state of `parse_table`'s `for tr_el in table_el.select(&tr_sel)`
loop: `(first_row, headers, rows)`. -/
def tableStep (st : Bool × List String × List (List (String × String)))
    (cells : List String) : Bool × List String × List (List (String × String)) :=
  if cells = [] then st
  else if st.1 then (false, cells, st.2.2)
  else (st.1, st.2.1, st.2.2 ++ [mkRow st.2.1 cells])

/-- `fn parse_table(table_el: ElementRef) -> TableData`. -/
def parse_table (table_el : HNode) : TableData :=
  let cellLists := ((descElems table_el).filter (tagIs "tr")).map rowCells
  let st := cellLists.foldl tableStep (true, [], [])
  ⟨st.2.1, st.2.2⟩

/-- The Tag Classifier's `Transparent` class, as the source realises it:
the final `else` branch of `parse_children` — not skipped, not the
table tag, not a target tag (all on the lowercased name). -/
def classifiedTransparent (name : String) : Bool :=
  !skip_tag (lowerName name) && !(lowerName name = "table") &&
    !is_target_tag (lowerName name)

/-- Modelled from the spec: the Table Extractor contract stated in the
claim's own words — "the first row whose matched cell list is non-empty
becomes the headers sequence; every subsequent row with a non-empty cell
list becomes exactly one record (cell *i* keyed by `headers[i]` when
defined, else `col<i>`); rows with no matched cells are skipped entirely
and never counted as the header."  To be compared with `parse_table`,
which is translated from the source's flag-carrying loop. -/
def tableSpec (table_el : HNode) : TableData :=
  let cellLists := ((descElems table_el).filter (tagIs "tr")).map rowCells
  match cellLists.filter (fun cs => cs ≠ []) with
  | [] => ⟨[], []⟩
  | headers :: dataRows => ⟨headers, dataRows.map (mkRow headers)⟩

/-! ## Tree reduction (`parse_children`, `parse_html_sync`) -/

/-- The `for (attr_name, attr_value) in e.attrs()` loop of the anchor
branch: `link` is overwritten at every case-insensitive `href` match, so
the final value is the last match. -/
def hrefOfAttrs (attrs : List (String × String)) : Option String :=
  attrs.foldl (fun link kv => if eqIgnoreAsciiCaseHref kv.1 then some kv.2 else link) none

mutual

/-- `fn parse_children(el: ElementRef) -> Vec<DomContent>`: iterate the
child nodes in order, concatenating each child's contribution. -/
def parse_children : HNode → List DomContent
  | .text _ => []
  | .element _ _ cs => childListContrib cs

def childListContrib : List HNode → List DomContent
  | [] => []
  | c :: cs => childContrib c ++ childListContrib cs

/-- The body of the `for child in el.children()` loop: the (possibly
empty) list of entries one child node pushes onto `result`. -/
def childContrib : HNode → List DomContent
  | .text s =>
      let c := clean_text s
      if c = "" then [] else [.node none none (some c) [] none]
  | .element name attrs cs =>
      let tag_name := lowerName name
      if skip_tag tag_name then []
      else if tag_name = "table" then
        [.table (parse_table (.element name attrs cs))]
      else if is_target_tag tag_name then
        let link := if tag_name = "a" then hrefOfAttrs attrs else none
        [.node (some tag_name) link none (childListContrib cs) none]
      else childListContrib cs

end

/-- `doc.select(&sel_html).next()` for the tag selector `"html"`:
first matching element of the parsed forest, in pre-order. -/
def firstHtmlElem (forest : List HNode) : Option HNode :=
  ((preElemsList forest).filter (tagIs "html")).head?

/-! ## Invariant predicates over the output tree -/

mutual

/-- No node anywhere in this tree has `link_subpage` set (the state of
every tree freshly produced by reduction). -/
def pristineB : DomContent → Bool
  | .table _ => true
  | .node _ _ _ cs ls => ls.isNone && pristineListB cs

def pristineListB : List DomContent → Bool
  | [] => true
  | c :: cs => pristineB c && pristineListB cs

end

/-- A `link_subpage` field is acceptable after one-hop expansion when it
is absent or holds a pristine tree. -/
def subpageOk : Option DomContent → Bool
  | none => true
  | some sub => pristineB sub

mutual

/-- Every `link_subpage` stored anywhere in this tree is itself a tree
in which no node has `link_subpage` set: expansion went exactly one hop. -/
def subpagesCleanB : DomContent → Bool
  | .table _ => true
  | .node _ _ _ cs ls => subpageOk ls && subpagesCleanListB cs

def subpagesCleanListB : List DomContent → Bool
  | [] => true
  | c :: cs => subpagesCleanB c && subpagesCleanListB cs

end

/-- The per-node condition of C6: a present non-anchor tag forbids both
`href` and `link_subpage`. -/
def tagLinkClean : Option String → Option String → Option DomContent → Bool
  | some t, href, ls => if t = "a" then true else href.isNone && ls.isNone
  | none, _, _ => true

mutual

/-- Every node of the tree (subpage trees included) whose `tag` is
present and is not `"a"` has `href = none` and `link_subpage = none`. -/
def nonAnchorCleanB : DomContent → Bool
  | .table _ => true
  | .node tag href _ cs ls =>
      tagLinkClean tag href ls && nonAnchorOptB ls && nonAnchorCleanListB cs

def nonAnchorOptB : Option DomContent → Bool
  | none => true
  | some sub => nonAnchorCleanB sub

def nonAnchorCleanListB : List DomContent → Bool
  | [] => true
  | c :: cs => nonAnchorCleanB c && nonAnchorCleanListB cs

end

section Oracles

/-- An absolute URL as `url::Url` presents it to this program: only its
scheme is inspected; the rest is carried opaquely for the fetch oracle. -/
structure Url where
  scheme : String
  rest : String
  deriving DecidableEq, Repr

/-- Outcome of `reqwest::get(u).await` followed by `resp.text().await`:
success with the body, a request error, or a body-read error. -/
inductive FetchOutcome where
  | ok (body : String)
  | reqErr (e : String)
  | readErr (e : String)
  deriving DecidableEq, Repr

variable (parseDoc : String → List HNode)
variable (joinUrl : Url → String → Option Url)
variable (fetchUrl : Url → FetchOutcome)
variable (urlParse : String → Option Url)

/-- `fn parse_html_sync(body: &str) -> DomContent`: parse the document
(external collaborator `Html::parse_document`, oracle `parseDoc`), take
the first `html` element, reduce its children; placeholder when the
document has no `html` element. -/
def parse_html_sync (body : String) : DomContent :=
  match firstHtmlElem (parseDoc body) with
  | some html_el =>
      .node (some "html") none none (parse_children html_el) none
  | none =>
      .node (some "html") none (some "(No <html> found)") [] none

/-! ## One-hop subpage expansion (`fetch_subpages_for_depth_one`)

The source walks the tree with an explicit stack of raw pointers,
mutating each visited `DomNode` in place; each node's update depends
only on that node's own `tag`/`href` (through the pure oracles), and
neither `Table` contents nor `link_subpage` trees are ever pushed onto
the stack, so the loop is embedded as structural recursion over
`children`: same visited set, same per-node update, order-independent
result.  The `spawn_blocking` join-error early return (`?`) is the only
aborting path; joining a pure closure cannot fail, so the model is
total. -/

/-- The per-anchor update: resolve `href` against the base
(`base_url.join(href)`), require scheme `http`/`https`, fetch, parse;
any failure leaves the field as it was (`continue`). -/
def expandLink (base : Url) (href : String) (old : Option DomContent) :
    Option DomContent :=
  match joinUrl base href with
  | some sub_url =>
      if sub_url.scheme = "http" || sub_url.scheme = "https" then
        match fetchUrl sub_url with
        | .ok body => some (parse_html_sync parseDoc body)
        | .reqErr _ => old
        | .readErr _ => old
      else old
  | none => old

/-- The three per-link failure modes of the expansion loop: `href` does
not resolve against the base, the resolved scheme is neither `http` nor
`https`, or the fetch of the resolved URL fails (request or body-read
error). -/
def linkFails (base : Url) (href : String) : Prop :=
  joinUrl base href = none ∨
  (∃ u, joinUrl base href = some u ∧ u.scheme ≠ "http" ∧ u.scheme ≠ "https") ∨
  (∃ u e, joinUrl base href = some u ∧ (u.scheme = "http" ∨ u.scheme = "https") ∧
    (fetchUrl u = .reqErr e ∨ fetchUrl u = .readErr e))

/-- The `if let Some(t) = &node.tag { if t == "a" { if let Some(href) =
&node.href { … } } }` conditional of the expansion loop: the new value of
the visited node's `link_subpage` field. -/
def anchorUpdate (base : Url) (tag : Option String) (href : Option String)
    (old : Option DomContent) : Option DomContent :=
  match tag with
  | some t =>
      if t = "a" then
        match href with
        | some h => expandLink parseDoc joinUrl fetchUrl base h old
        | none => old
      else old
  | none => old

mutual

/-- `fetch_subpages_for_depth_one`, as the tree it leaves behind. -/
def expandContent (base : Url) : DomContent → DomContent
  | .table d => .table d
  | .node tag href text cs ls =>
      .node tag href text (expandList base cs)
        (anchorUpdate parseDoc joinUrl fetchUrl base tag href ls)

def expandList (base : Url) : List DomContent → List DomContent
  | [] => []
  | c :: cs => expandContent base c :: expandList base cs

end

/-! ## Multi-URL batch driver (`process_form`)

Only the pure request-processing core is embedded: splitting the
textarea into URLs, the per-URL pipeline with its error placeholders,
and the collection of one entry per URL.  HTML rendering of the result
page is presentation, out of scope. -/

/-- `str::split('\n')`: the pieces between newline separators (`n`
separators yield `n + 1` pieces, empties included). -/
def splitNl : List Char → List (List Char)
  | [] => [[]]
  | c :: rest =>
      if c = '\n' then [] :: splitNl rest
      else
        match splitNl rest with
        | [] => [[c]]
        | l :: ls => (c :: l) :: ls

/-- `form.urls.replace('\r', "").split('\n').map(trim).filter(non-empty)`. -/
def urlList (urls : String) : List String :=
  ((splitNl (urls.data.filter (fun c => c ≠ '\r'))).map
      (fun l => String.mk (trimRight (trimLeft l)))).filter (fun s => s ≠ "")

/-- The body of `process_form`'s `for url_str in &url_list` loop: the one
`DomContent` entry pushed for this URL. -/
def processOne (include_subpages : Bool) (url_str : String) : DomContent :=
  match urlParse url_str with
  | none =>
      .node (some "ErrorURL") none (some ("URL parse error: " ++ url_str)) [] none
  | some parsed_url =>
      match fetchUrl parsed_url with
      | .reqErr e =>
          .node (some "ErrorFetch") none (some ("Request error: " ++ e)) [] none
      | .readErr e =>
          .node (some "ErrorFetch") none (some ("Error reading response: " ++ e)) [] none
      | .ok resp_body =>
          let root_content := parse_html_sync parseDoc resp_body
          if include_subpages then
            expandContent parseDoc joinUrl fetchUrl parsed_url root_content
          else root_content

/-- `process_form`'s `results` vector: one push per URL, errors included
(`continue` after pushing a placeholder). -/
def process_form (urls : String) (include_subpages : Bool) : List DomContent :=
  (urlList urls).foldl
    (fun results url_str =>
      results ++ [processOne parseDoc joinUrl fetchUrl urlParse include_subpages url_str])
    []

end Oracles

/-! ## Concrete sample data (used by witnesses) -/

def sampleBase : Url := ⟨"https", "ex.com"⟩

/-- A resolution oracle that fails on every href. -/
def joinNone : Url → String → Option Url := fun _ _ => none

/-- A resolution oracle that resolves every href to an `https` URL. -/
def joinHttps : Url → String → Option Url := fun _ h => some ⟨"https", h⟩

/-- A parse oracle returning a fixed small document. -/
def parseDocConst : String → List HNode :=
  fun _ => [HNode.element "html" [] [HNode.element "p" [] [HNode.text "A"]]]

/-- A fetch oracle that always succeeds. -/
def fetchOk : Url → FetchOutcome := fun _ => .ok "page"

/-- A fetch oracle that always fails with a request error. -/
def fetchDown : Url → FetchOutcome := fun _ => .reqErr "down"

/-- A URL-parse oracle accepting everything except the string `"bad"`. -/
def urlParseMost : String → Option Url :=
  fun s => if s = "bad" then none else some ⟨"https", s⟩

def samplePara (s : String) : HNode := .element "p" [] [.text s]

def sampleDiv : HNode := .element "div" [] [samplePara "A", samplePara "B"]

def sampleNav : HNode := .element "nav" [] [samplePara "X"]

def sampleAnchorNode : DomContent :=
  .node (some "a") (some "/p") none [.node none none (some "go") [] none] none

/-! # Theorems -/

/-! ## Reduction: flattening, skipping, anchor attributes -/

theorem childListContrib_append (l1 l2 : List HNode) :
    childListContrib (l1 ++ l2) = childListContrib l1 ++ childListContrib l2 := by
  induction l1 with
  | nil => simp [childListContrib]
  | cons c cs ih => simp [childListContrib, ih]

/-- C7: a `Transparent`-classified element contributes no node of its
own; the reductions of its children are spliced, in document order, into
the surrounding parent's child sequence. -/
theorem transparent_element_splices (name : String) (attrs : List (String × String))
    (cs pre post : List HNode)
    (h : classifiedTransparent name = true) :
    childListContrib (pre ++ HNode.element name attrs cs :: post)
      = childListContrib pre ++ childListContrib cs ++ childListContrib post := by
  unfold classifiedTransparent at h
  simp only [Bool.and_eq_true, Bool.not_eq_true', Bool.not_eq_true,
    decide_eq_false_iff_not] at h
  obtain ⟨⟨h1, h2⟩, h3⟩ := h
  rw [childListContrib_append]
  show childListContrib pre ++ (childContrib _ ++ childListContrib post) = _
  simp [childContrib, h1, h2, h3]

/-- Witness for C7: `<div><p>A</p><p>B</p></div>` spliced into the parent
sequence as two sibling paragraph reductions. -/
theorem transparent_element_splices_witness :
    classifiedTransparent "div" = true ∧
    childListContrib ([] ++ HNode.element "div" [] [samplePara "A", samplePara "B"] :: [])
      = childListContrib [] ++ childListContrib [samplePara "A", samplePara "B"]
        ++ childListContrib [] :=
  ⟨by decide,
   transparent_element_splices "div" [] [samplePara "A", samplePara "B"] [] [] (by decide)⟩

/-- C8: a `Skip`-classified element contributes nothing at all — neither
it nor any of its descendants (`Retain`-classified ones included) leaves
any entry in the surrounding child sequence. -/
theorem skip_discards_subtree (name : String) (attrs : List (String × String))
    (cs pre post : List HNode)
    (h : skip_tag (lowerName name) = true) :
    childContrib (HNode.element name attrs cs) = [] ∧
    childListContrib (pre ++ HNode.element name attrs cs :: post)
      = childListContrib pre ++ childListContrib post := by
  have hc : childContrib (HNode.element name attrs cs) = [] := by
    simp [childContrib, h]
  refine ⟨hc, ?_⟩
  rw [childListContrib_append]
  show childListContrib pre ++ (childContrib _ ++ childListContrib post) = _
  rw [hc]
  simp

/-- Witness for C8: `<nav><p>X</p></nav>` contributes zero nodes even
though `p` is `Retain`-classified. -/
theorem skip_discards_subtree_witness :
    skip_tag (lowerName "nav") = true ∧
    (childContrib (HNode.element "nav" [] [samplePara "X"]) = [] ∧
     childListContrib ([] ++ HNode.element "nav" [] [samplePara "X"] :: [])
       = childListContrib [] ++ childListContrib []) :=
  ⟨by decide, skip_discards_subtree "nav" [] [samplePara "X"] [] [] (by decide)⟩

theorem hrefFold_eq_getLast (attrs : List (String × String)) (init : Option String) :
    attrs.foldl (fun link kv => if eqIgnoreAsciiCaseHref kv.1 then some kv.2 else link) init
      = Option.or
          (((attrs.filter (fun kv => eqIgnoreAsciiCaseHref kv.1)).map Prod.snd).getLast?)
          init := by
  induction attrs using List.reverseRecOn generalizing init with
  | nil => simp
  | append_singleton l kv ih =>
      rw [List.foldl_append, List.filter_append, List.map_append]
      by_cases hp : eqIgnoreAsciiCaseHref kv.1 = true
      · simp [hp, List.getLast?_concat]
      · simp only [Bool.not_eq_true] at hp
        simp [hp, ih]

/-- C1 (amended): the emitted anchor node's `link_target` is the value of
the **last** attribute whose name ASCII-case-insensitively equals
`"href"`, in attribute order (the loop overwrites `link` on every
match). -/
theorem anchor_href_last_attribute (name : String) (attrs : List (String × String))
    (cs : List HNode) (h : lowerName name = "a") :
    childContrib (HNode.element name attrs cs)
      = [DomContent.node (some "a")
          (((attrs.filter (fun kv => eqIgnoreAsciiCaseHref kv.1)).map Prod.snd).getLast?)
          none (childListContrib cs) none] := by
  have hlast := hrefFold_eq_getLast attrs none
  simp only [Option.or_none] at hlast
  simp [childContrib, h, skip_tag, is_target_tag, hrefOfAttrs, hlast]

/-- Witness for C1's amended theorem, at an anchor carrying two
case-insensitive `href` attributes. -/
theorem anchor_href_last_attribute_witness :
    lowerName "a" = "a" ∧
    childContrib (HNode.element "a" [("href", "/a"), ("HREF", "/b")] [])
      = [DomContent.node (some "a")
          ((([("href", "/a"), ("HREF", "/b")].filter
              (fun kv => eqIgnoreAsciiCaseHref kv.1)).map Prod.snd).getLast?)
          none (childListContrib []) none] :=
  ⟨by decide, anchor_href_last_attribute "a" [("href", "/a"), ("HREF", "/b")] [] (by decide)⟩

/-- Counterexample to C1 as stated: an anchor with attributes
`href="/a"` then `HREF="/b"` is emitted with `link_target = "/b"` (the
last match), not `"/a"` (the first). -/
theorem anchor_href_first_counterexample :
    childContrib (HNode.element "a" [("href", "/a"), ("HREF", "/b")] [])
      = [DomContent.node (some "a") (some "/b") none [] none] ∧
    (some "/b" : Option String) ≠ some "/a" :=
  ⟨rfl, by decide⟩

/-! ## Expansion: per-link failure tolerance -/

theorem expandList_append (pd : String → List HNode) (ju : Url → String → Option Url)
    (fu : Url → FetchOutcome) (base : Url) (l1 l2 : List DomContent) :
    expandList pd ju fu base (l1 ++ l2)
      = expandList pd ju fu base l1 ++ expandList pd ju fu base l2 := by
  induction l1 with
  | nil => simp [expandList]
  | cons c cs ih => simp [expandList, ih]

theorem expandLink_fails (pd : String → List HNode) (ju : Url → String → Option Url)
    (fu : Url → FetchOutcome) (base : Url) (h : String) (old : Option DomContent)
    (hfail : linkFails ju fu base h) :
    expandLink pd ju fu base h old = old := by
  rcases hfail with hj | ⟨u, hu, h1, h2⟩ | ⟨u, e, hu, hs, hf⟩
  · simp [expandLink, hj]
  · simp [expandLink, hu, h1, h2]
  · rcases hs with hs | hs <;> rcases hf with hf | hf <;> simp [expandLink, hu, hs, hf]

/-- C2: when an anchor's href fails to resolve, resolves to a scheme
other than `http`/`https`, or its fetch fails, the node keeps
`link_subpage = none`, its children are still expanded, and the
expansion of the surrounding sibling list proceeds normally — the
failure never aborts the expansion. -/
theorem expansion_absorbs_link_failures (pd : String → List HNode)
    (ju : Url → String → Option Url) (fu : Url → FetchOutcome) (base : Url)
    (h : String) (txt : Option String) (cs pre post : List DomContent)
    (hfail : linkFails ju fu base h) :
    expandContent pd ju fu base (.node (some "a") (some h) txt cs none)
      = .node (some "a") (some h) txt (expandList pd ju fu base cs) none ∧
    expandList pd ju fu base (pre ++ DomContent.node (some "a") (some h) txt cs none :: post)
      = expandList pd ju fu base pre
        ++ expandContent pd ju fu base (.node (some "a") (some h) txt cs none)
          :: expandList pd ju fu base post := by
  constructor
  · simp [expandContent, anchorUpdate, expandLink_fails pd ju fu base h none hfail]
  · rw [expandList_append]
    show _ = _ ++ expandList pd ju fu base (_ :: post)
    simp [expandList]

/-- Witness for C2: an oracle under which no href resolves; the anchor
keeps `link_subpage = none` and its sibling list is still processed. -/
theorem expansion_absorbs_link_failures_witness :
    linkFails joinNone fetchOk sampleBase "/p" ∧
    (expandContent parseDocConst joinNone fetchOk sampleBase
        (.node (some "a") (some "/p") none [sampleAnchorNode] none)
      = .node (some "a") (some "/p") none
          (expandList parseDocConst joinNone fetchOk sampleBase [sampleAnchorNode]) none ∧
     expandList parseDocConst joinNone fetchOk sampleBase
        ([sampleAnchorNode] ++ DomContent.node (some "a") (some "/p") none [sampleAnchorNode] none
          :: [sampleAnchorNode])
      = expandList parseDocConst joinNone fetchOk sampleBase [sampleAnchorNode]
        ++ expandContent parseDocConst joinNone fetchOk sampleBase
            (.node (some "a") (some "/p") none [sampleAnchorNode] none)
          :: expandList parseDocConst joinNone fetchOk sampleBase [sampleAnchorNode]) :=
  ⟨Or.inl rfl,
   expansion_absorbs_link_failures parseDocConst joinNone fetchOk sampleBase "/p" none
     [sampleAnchorNode] [sampleAnchorNode] [sampleAnchorNode] (Or.inl rfl)⟩

/-! ## Batch processing: one entry per URL, failures isolated -/

theorem foldl_push_eq_map {α β : Type} (f : α → β) (l : List α) (acc : List β) :
    l.foldl (fun results a => results ++ [f a]) acc = acc ++ l.map f := by
  induction l generalizing acc with
  | nil => simp
  | cons a l ih => simp [ih]

/-- C9: the batch driver produces exactly one entry per non-empty trimmed
input line, in input order, each depending only on its own line — and a
line whose root fetch fails yields the `ErrorFetch` placeholder for that
line (so it cannot affect any other line's entry). -/
theorem batch_entries_independent (pd : String → List HNode)
    (ju : Url → String → Option Url) (fu : Url → FetchOutcome)
    (up : String → Option Url) (urls : String) (inc : Bool) :
    process_form pd ju fu up urls inc
      = (urlList urls).map (processOne pd ju fu up inc) ∧
    (∀ line u e, up line = some u → fu u = FetchOutcome.reqErr e →
      processOne pd ju fu up inc line
        = .node (some "ErrorFetch") none (some ("Request error: " ++ e)) [] none) ∧
    (∀ line u e, up line = some u → fu u = FetchOutcome.readErr e →
      processOne pd ju fu up inc line
        = .node (some "ErrorFetch") none (some ("Error reading response: " ++ e)) [] none) := by
  refine ⟨?_, ?_, ?_⟩
  · unfold process_form
    rw [foldl_push_eq_map]
    simp
  · intro line u e hu hf
    simp [processOne, hu, hf]
  · intro line u e hu hf
    simp [processOne, hu, hf]

/-- Witness for C9: a batch whose fetches all fail still yields one
placeholder entry per line. -/
theorem batch_entries_independent_witness :
    process_form parseDocConst joinHttps fetchDown urlParseMost "u1\nu2" true
      = (urlList "u1\nu2").map (processOne parseDocConst joinHttps fetchDown urlParseMost true) ∧
    processOne parseDocConst joinHttps fetchDown urlParseMost true "u1"
      = .node (some "ErrorFetch") none (some ("Request error: " ++ "down")) [] none :=
  ⟨(batch_entries_independent parseDocConst joinHttps fetchDown urlParseMost "u1\nu2" true).1,
   (batch_entries_independent parseDocConst joinHttps fetchDown urlParseMost "u1\nu2" true).2.1
     "u1" ⟨"https", "u1"⟩ "down" (by decide) rfl⟩

/-! ## Expansion invariants: one hop only, anchors only -/

theorem pristineListB_append (l1 l2 : List DomContent) :
    pristineListB (l1 ++ l2) = (pristineListB l1 && pristineListB l2) := by
  induction l1 with
  | nil => simp [pristineListB]
  | cons c cs ih => simp [pristineListB, ih, Bool.and_assoc]

mutual

theorem pristine_childContrib : ∀ n : HNode, pristineListB (childContrib n) = true
  | .text s => by
      by_cases hc : clean_text s = ""
      · simp [childContrib, hc, pristineListB]
      · simp [childContrib, hc, pristineListB, pristineB]
  | .element name attrs cs => by
      by_cases h1 : skip_tag (lowerName name) = true
      · simp [childContrib, h1, pristineListB]
      · by_cases h2 : lowerName name = "table"
        · simp [childContrib, h1, h2, pristineListB, pristineB]
        · by_cases h3 : is_target_tag (lowerName name) = true
          · simpa [childContrib, h1, h2, h3, pristineListB, pristineB] using
              pristine_childListContrib cs
          · simpa [childContrib, h1, h2, h3] using pristine_childListContrib cs

theorem pristine_childListContrib : ∀ l : List HNode, pristineListB (childListContrib l) = true
  | [] => rfl
  | c :: cs => by
      rw [childListContrib, pristineListB_append,
        pristine_childContrib c, pristine_childListContrib cs]
      rfl

end

theorem pristine_parse_html_sync (pd : String → List HNode) (body : String) :
    pristineB (parse_html_sync pd body) = true := by
  unfold parse_html_sync
  cases h : firstHtmlElem (pd body) with
  | none => rfl
  | some el =>
      cases el with
      | text s => simp [pristineB, parse_children, pristineListB]
      | element name attrs cs =>
          simp [pristineB, parse_children, pristine_childListContrib]

/-- The anchor update either leaves the field untouched or stores a
freshly reduced subpage. -/
theorem expandLink_cases (pd : String → List HNode) (ju : Url → String → Option Url)
    (fu : Url → FetchOutcome) (base : Url) (h : String) (old : Option DomContent) :
    expandLink pd ju fu base h old = old ∨
    ∃ body, expandLink pd ju fu base h old = some (parse_html_sync pd body) := by
  unfold expandLink
  cases hj : ju base h with
  | none => exact Or.inl rfl
  | some u =>
      dsimp only
      cases hb : (decide (u.scheme = "http") || decide (u.scheme = "https")) with
      | false =>
          rw [if_neg (by simp)]
          exact Or.inl rfl
      | true =>
          rw [if_pos rfl]
          cases hf : fu u with
          | ok body => exact Or.inr ⟨body, rfl⟩
          | reqErr e => exact Or.inl rfl
          | readErr e => exact Or.inl rfl

/-- The per-node field update either keeps the old field or stores a
freshly reduced subpage. -/
theorem anchorUpdate_cases (pd : String → List HNode) (ju : Url → String → Option Url)
    (fu : Url → FetchOutcome) (base : Url) (tag : Option String) (href : Option String)
    (old : Option DomContent) :
    anchorUpdate pd ju fu base tag href old = old ∨
    ∃ body, anchorUpdate pd ju fu base tag href old = some (parse_html_sync pd body) := by
  cases tag with
  | none => exact Or.inl rfl
  | some t =>
      by_cases ht : t = "a"
      · subst ht
        cases href with
        | none => simp [anchorUpdate]
        | some h => simpa [anchorUpdate] using expandLink_cases pd ju fu base h old
      · simp [anchorUpdate, ht]

mutual

theorem subpagesClean_expand (pd : String → List HNode) (ju : Url → String → Option Url)
    (fu : Url → FetchOutcome) (base : Url) :
    ∀ c : DomContent, pristineB c = true →
      subpagesCleanB (expandContent pd ju fu base c) = true
  | .table d => fun _ => rfl
  | .node tag href txt cs ls => fun hp => by
      simp only [pristineB, Bool.and_eq_true, Option.isNone_iff_eq_none] at hp
      obtain ⟨hls, hcs⟩ := hp
      subst hls
      simp only [expandContent, subpagesCleanB, Bool.and_eq_true]
      refine ⟨?_, subpagesCleanList_expand pd ju fu base cs hcs⟩
      rcases anchorUpdate_cases pd ju fu base tag href none with he | ⟨body, he⟩
      · rw [he]; rfl
      · rw [he]
        simp [subpageOk, pristine_parse_html_sync]

theorem subpagesCleanList_expand (pd : String → List HNode) (ju : Url → String → Option Url)
    (fu : Url → FetchOutcome) (base : Url) :
    ∀ l : List DomContent, pristineListB l = true →
      subpagesCleanListB (expandList pd ju fu base l) = true
  | [] => fun _ => rfl
  | c :: cs => fun hp => by
      rw [pristineListB] at hp
      simp only [Bool.and_eq_true] at hp
      rw [expandList, subpagesCleanListB,
        subpagesClean_expand pd ju fu base c hp.1,
        subpagesCleanList_expand pd ju fu base cs hp.2]
      rfl

end

/-- C5: a tree produced by reduction and then one-hop expansion stores
only pristine trees in `linked_subpage` fields — no node inside any
stored subpage has its own `linked_subpage` set. -/
theorem expansion_depth_exactly_one (pd : String → List HNode)
    (ju : Url → String → Option Url) (fu : Url → FetchOutcome) (base : Url)
    (body : String) :
    subpagesCleanB (expandContent pd ju fu base (parse_html_sync pd body)) = true :=
  subpagesClean_expand pd ju fu base _ (pristine_parse_html_sync pd body)

theorem nonAnchorCleanListB_append (l1 l2 : List DomContent) :
    nonAnchorCleanListB (l1 ++ l2)
      = (nonAnchorCleanListB l1 && nonAnchorCleanListB l2) := by
  induction l1 with
  | nil => simp [nonAnchorCleanListB]
  | cons c cs ih => simp [nonAnchorCleanListB, ih, Bool.and_assoc]

mutual

theorem nonAnchor_childContrib : ∀ n : HNode, nonAnchorCleanListB (childContrib n) = true
  | .text s => by
      by_cases hc : clean_text s = ""
      · simp [childContrib, hc, nonAnchorCleanListB]
      · simp [childContrib, hc, nonAnchorCleanListB, nonAnchorCleanB,
          tagLinkClean, nonAnchorOptB]
  | .element name attrs cs => by
      by_cases h1 : skip_tag (lowerName name) = true
      · simp [childContrib, h1, nonAnchorCleanListB]
      · by_cases h2 : lowerName name = "table"
        · simp [childContrib, h1, h2, nonAnchorCleanListB, nonAnchorCleanB]
        · by_cases h3 : is_target_tag (lowerName name) = true
          · by_cases ha : lowerName name = "a" <;>
              simpa [childContrib, h1, h2, h3, nonAnchorCleanListB, nonAnchorCleanB,
                tagLinkClean, nonAnchorOptB, ha] using nonAnchor_childListContrib cs
          · simpa [childContrib, h1, h2, h3] using nonAnchor_childListContrib cs

theorem nonAnchor_childListContrib :
    ∀ l : List HNode, nonAnchorCleanListB (childListContrib l) = true
  | [] => rfl
  | c :: cs => by
      rw [childListContrib, nonAnchorCleanListB_append,
        nonAnchor_childContrib c, nonAnchor_childListContrib cs]
      rfl

end

theorem nonAnchor_parse_html_sync (pd : String → List HNode) (body : String) :
    nonAnchorCleanB (parse_html_sync pd body) = true := by
  unfold parse_html_sync
  cases h : firstHtmlElem (pd body) with
  | none => rfl
  | some el =>
      cases el with
      | text s =>
          simp [nonAnchorCleanB, parse_children, nonAnchorCleanListB,
            tagLinkClean, nonAnchorOptB]
      | element name attrs cs =>
          simp [nonAnchorCleanB, parse_children, nonAnchor_childListContrib,
            tagLinkClean, nonAnchorOptB]

mutual

theorem nonAnchor_expand (pd : String → List HNode) (ju : Url → String → Option Url)
    (fu : Url → FetchOutcome) (base : Url) :
    ∀ c : DomContent, nonAnchorCleanB c = true →
      nonAnchorCleanB (expandContent pd ju fu base c) = true
  | .table d => fun _ => rfl
  | .node tag href txt cs ls => fun hp => by
      simp only [nonAnchorCleanB, Bool.and_eq_true] at hp
      obtain ⟨⟨htag, hsub⟩, hcs⟩ := hp
      simp only [expandContent, nonAnchorCleanB, Bool.and_eq_true]
      refine ⟨⟨?_, ?_⟩, nonAnchorList_expand pd ju fu base cs hcs⟩
      · cases tag with
        | none => rfl
        | some t =>
            by_cases ht : t = "a"
            · simp [tagLinkClean, ht]
            · have hupd : anchorUpdate pd ju fu base (some t) href ls = ls := by
                simp [anchorUpdate, ht]
              rw [hupd]
              exact htag
      · rcases anchorUpdate_cases pd ju fu base tag href ls with he | ⟨body, he⟩
        · rw [he]; exact hsub
        · rw [he]
          simpa [nonAnchorOptB] using nonAnchor_parse_html_sync pd body

theorem nonAnchorList_expand (pd : String → List HNode) (ju : Url → String → Option Url)
    (fu : Url → FetchOutcome) (base : Url) :
    ∀ l : List DomContent, nonAnchorCleanListB l = true →
      nonAnchorCleanListB (expandList pd ju fu base l) = true
  | [] => fun _ => rfl
  | c :: cs => fun hp => by
      rw [nonAnchorCleanListB] at hp
      simp only [Bool.and_eq_true] at hp
      rw [expandList, nonAnchorCleanListB,
        nonAnchor_expand pd ju fu base c hp.1,
        nonAnchorList_expand pd ju fu base cs hp.2]
      rfl

end

/-- C6: in every tree produced by reduction, and in the result of
running one-hop expansion on any tree already satisfying the invariant,
every node whose tag is present and is not the anchor tag has
`link_target` and `linked_subpage` absent. -/
theorem non_anchor_never_linked (pd : String → List HNode)
    (ju : Url → String → Option Url) (fu : Url → FetchOutcome) (base : Url)
    (body : String) :
    nonAnchorCleanB (parse_html_sync pd body) = true ∧
    (∀ t : DomContent, nonAnchorCleanB t = true →
      nonAnchorCleanB (expandContent pd ju fu base t) = true) :=
  ⟨nonAnchor_parse_html_sync pd body, fun t ht => nonAnchor_expand pd ju fu base t ht⟩

/-- Witness for C6: the invariant holds on a concrete anchor node and is
preserved by a concrete expansion run. -/
theorem non_anchor_never_linked_witness :
    nonAnchorCleanB sampleAnchorNode = true ∧
    nonAnchorCleanB (expandContent parseDocConst joinHttps fetchOk sampleBase
      sampleAnchorNode) = true :=
  ⟨rfl,
   (non_anchor_never_linked parseDocConst joinHttps fetchOk sampleBase "body").2
     sampleAnchorNode rfl⟩

/-! ## Table extraction: header inference and row records -/

theorem tableStep_false (headers : List String) (rows : List (List (String × String)))
    (ls : List (List String)) :
    ls.foldl tableStep (false, headers, rows)
      = (false, headers, rows ++ (ls.filter (fun cs => cs ≠ [])).map (mkRow headers)) := by
  induction ls generalizing rows with
  | nil => simp
  | cons c ls ih =>
      by_cases hc : c = []
      · subst hc
        simpa [tableStep] using ih rows
      · simp [tableStep, hc, ih]

theorem tableFold_spec (ls : List (List String)) :
    ls.foldl tableStep (true, [], [])
      = match ls.filter (fun cs => cs ≠ []) with
        | [] => (true, [], [])
        | headers :: dataRows => (false, headers, dataRows.map (mkRow headers)) := by
  induction ls with
  | nil => simp
  | cons c ls ih =>
      by_cases hc : c = []
      · subst hc
        simpa [tableStep] using ih
      · simp [tableStep, hc, tableStep_false]

/-- C3: the source's flag-carrying row loop realises the specified table
contract — the first row with a non-empty matched cell list becomes the
headers, each later non-empty row becomes exactly one record keyed by
`headers[i]` (falling back to `col<i>`), and rows with no matched cells
are skipped without ever being counted as the header. -/
theorem parse_table_eq_tableSpec (table_el : HNode) :
    parse_table table_el = tableSpec table_el := by
  unfold parse_table tableSpec
  simp only [tableFold_spec]
  cases ((descElems table_el).filter (tagIs "tr")).map rowCells
    |>.filter (fun cs => cs ≠ []) with
  | nil => rfl
  | cons headers dataRows => rfl

/-! ## Nested tables: one record set, rows absorbed -/

mutual

theorem mem_preElems_sublist : ∀ (m n : HNode), n ∈ preElems m →
    List.Sublist (preElems n) (preElems m)
  | .text _, n => by simp [preElems]
  | .element name attrs cs, n => fun hn => by
      rw [preElems] at hn
      rcases List.mem_cons.mp hn with h | h
      · subst h
        exact List.Sublist.refl _
      · exact (mem_preElemsList_sublist cs n h).cons _

theorem mem_preElemsList_sublist : ∀ (l : List HNode) (n : HNode), n ∈ preElemsList l →
    List.Sublist (preElems n) (preElemsList l)
  | [], n => by simp [preElemsList]
  | c :: cs, n => fun hn => by
      rw [preElemsList] at hn
      rcases List.mem_append.mp hn with h | h
      · exact (mem_preElems_sublist c n h).trans (List.sublist_append_left _ _)
      · exact (mem_preElemsList_sublist cs n h).trans (List.sublist_append_right _ _)

end

theorem descElems_sublist_preElems (n : HNode) :
    List.Sublist (descElems n) (preElems n) := by
  cases n with
  | text s => simp [descElems, preElems]
  | element name attrs cs =>
      rw [descElems, preElems]
      exact List.sublist_cons_self _ _

/-- C4: a table element nested anywhere inside another table element is
reached by the outer table's unscoped `tr` selector — the nested rows'
cell lists occur (in order) within the outer table's row scan — while the
outer table contributes exactly one `TableData` entry to its parent and
the nested table none of its own. -/
theorem nested_table_rows_absorbed (oname iname : String)
    (oattrs iattrs : List (String × String)) (ocs ics : List HNode)
    (hmem : HNode.element iname iattrs ics ∈ descElems (HNode.element oname oattrs ocs))
    (htagO : lowerName oname = "table") (htagI : lowerName iname = "table") :
    List.Sublist
      (((descElems (HNode.element iname iattrs ics)).filter (tagIs "tr")).map rowCells)
      (((descElems (HNode.element oname oattrs ocs)).filter (tagIs "tr")).map rowCells) ∧
    childContrib (HNode.element oname oattrs ocs)
      = [DomContent.table (parse_table (HNode.element oname oattrs ocs))] := by
  constructor
  · have h1 : List.Sublist (preElems (HNode.element iname iattrs ics)) (preElemsList ocs) :=
      mem_preElemsList_sublist ocs _ (by simpa [descElems] using hmem)
    have h2 : List.Sublist (descElems (HNode.element iname iattrs ics))
        (descElems (HNode.element oname oattrs ocs)) := by
      rw [show descElems (HNode.element oname oattrs ocs) = preElemsList ocs from rfl]
      exact (descElems_sublist_preElems _).trans h1
    exact (h2.filter _).map _
  · simp [childContrib, htagO, skip_tag]

/-- Witness for C4: a concrete table containing a nested table; the
nested row's cells occur in the outer scan and the outer element
contributes a single record set. -/
theorem nested_table_rows_absorbed_witness :
    (HNode.element "table" [] [HNode.element "tr" [] []]
        ∈ descElems (HNode.element "table" []
            [HNode.element "tr" [] [], HNode.element "table" [] [HNode.element "tr" [] []]])) ∧
    (List.Sublist
      (((descElems (HNode.element "table" [] [HNode.element "tr" [] []])).filter
          (tagIs "tr")).map rowCells)
      (((descElems (HNode.element "table" []
          [HNode.element "tr" [] [], HNode.element "table" [] [HNode.element "tr" [] []]])).filter
          (tagIs "tr")).map rowCells) ∧
     childContrib (HNode.element "table" []
          [HNode.element "tr" [] [], HNode.element "table" [] [HNode.element "tr" [] []]])
       = [DomContent.table (parse_table (HNode.element "table" []
          [HNode.element "tr" [] [], HNode.element "table" [] [HNode.element "tr" [] []]]))]) :=
  ⟨by simp [descElems, preElemsList, preElems],
   nested_table_rows_absorbed "table" "table" [] [] _ _
     (by simp [descElems, preElemsList, preElems]) (by decide) (by decide)⟩

/-! ## Text normalisation: idempotence -/

theorem collapseWs_wsOnlySpace (l : List Char) :
    ∀ c ∈ collapseWs l, rustIsWhitespace c = true → c = ' ' := by
  induction l using collapseWs.induct with
  | case1 => simp [collapseWs]
  | case2 c hc => simp [collapseWs, hc]
  | case3 c hc => simp [collapseWs, hc]
  | case4 c1 c2 rest h ih => simpa [collapseWs, h] using ih
  | case5 c1 c2 rest h ih =>
      by_cases hw : rustIsWhitespace c1 = true
      · rw [collapseWs, if_neg h, if_pos hw]
        rintro x hx hxw
        rcases List.mem_cons.mp hx with rfl | hx
        · rfl
        · exact ih x hx hxw
      · rw [collapseWs, if_neg h, if_neg hw]
        rintro x hx hxw
        rcases List.mem_cons.mp hx with rfl | hx
        · exact absurd hxw hw
        · exact ih x hx hxw

theorem collapseWs_head_not_ws (c : Char) (rest : List Char)
    (hc : rustIsWhitespace c = false) :
    ∃ t, collapseWs (c :: rest) = c :: t := by
  cases rest with
  | nil => exact ⟨[], by simp [collapseWs, hc]⟩
  | cons c2 r => exact ⟨collapseWs (c2 :: r), by simp [collapseWs, hc]⟩

theorem collapseWs_chain (l : List Char) : List.Chain' wsChainR (collapseWs l) := by
  induction l using collapseWs.induct with
  | case1 => simp [collapseWs]
  | case2 c hc => simp [collapseWs, hc]
  | case3 c hc => simp [collapseWs, hc]
  | case4 c1 c2 rest h ih => simpa [collapseWs, h] using ih
  | case5 c1 c2 rest h ih =>
      rw [collapseWs, if_neg h, List.chain'_cons']
      refine ⟨?_, ih⟩
      intro y hy
      by_cases hw2 : rustIsWhitespace c2 = true
      · have hw1 : rustIsWhitespace c1 = false := by
          cases hw1 : rustIsWhitespace c1 with
          | false => rfl
          | true => exact absurd (by simp [hw1, hw2]) h
        left
        simp [hw1]
      · obtain ⟨t, ht⟩ := collapseWs_head_not_ws c2 rest (by simpa using hw2)
        rw [ht] at hy
        simp only [List.head?_cons, Option.mem_def, Option.some.injEq] at hy
        subst hy
        right
        simpa using hw2

theorem trimLeft_sublist (l : List Char) : List.Sublist (trimLeft l) l :=
  (List.dropWhile_suffix _).sublist

theorem trimRight_prefix_self (l : List Char) : trimRight l <+: l := by
  have h := List.reverse_prefix.mpr
    (List.dropWhile_suffix (l := l.reverse) rustIsWhitespace)
  rwa [List.reverse_reverse] at h

theorem trimRight_sublist (l : List Char) : List.Sublist (trimRight l) l :=
  (trimRight_prefix_self l).sublist

theorem trimLeft_head_not_ws (l : List Char) :
    ∀ c ∈ (trimLeft l).head?, rustIsWhitespace c = false := by
  induction l with
  | nil => intro c hc; simp [trimLeft] at hc
  | cons a as ih =>
      by_cases ha : rustIsWhitespace a = true
      · simpa [trimLeft, List.dropWhile_cons, ha] using ih
      · intro c hc
        rw [trimLeft, List.dropWhile_cons, if_neg ha] at hc
        simp only [List.head?_cons, Option.mem_def, Option.some.injEq] at hc
        subst hc
        simpa using ha

theorem trimRight_last_not_ws (l : List Char) :
    ∀ c ∈ (trimRight l).getLast?, rustIsWhitespace c = false := by
  intro c hc
  rw [trimRight, List.getLast?_reverse] at hc
  exact trimLeft_head_not_ws l.reverse c hc

theorem head_not_ws_mono {l₁ l₂ : List Char} (hp : l₁ <+: l₂)
    (h : ∀ c ∈ l₂.head?, rustIsWhitespace c = false) :
    ∀ c ∈ l₁.head?, rustIsWhitespace c = false := by
  obtain ⟨t, rfl⟩ := hp
  intro c hc
  cases l₁ with
  | nil => simp at hc
  | cons a as =>
      apply h
      simpa using hc

theorem trimLeft_eq_self (l : List Char)
    (h : ∀ c ∈ l.head?, rustIsWhitespace c = false) : trimLeft l = l := by
  cases l with
  | nil => rfl
  | cons a as =>
      have ha : rustIsWhitespace a = false := h a rfl
      simp [trimLeft, List.dropWhile_cons, ha]

theorem trimRight_eq_self (l : List Char)
    (h : ∀ c ∈ l.getLast?, rustIsWhitespace c = false) : trimRight l = l := by
  have hrev : l.reverse.dropWhile rustIsWhitespace = l.reverse := by
    cases hr : l.reverse with
    | nil => rfl
    | cons a as =>
        have ha : rustIsWhitespace a = false := by
          apply h
          rw [← List.head?_reverse, hr]
          rfl
        simp [List.dropWhile_cons, ha]
  rw [trimRight, hrev, List.reverse_reverse]

theorem collapseWs_eq_self : ∀ l : List Char,
    (∀ c ∈ l, rustIsWhitespace c = true → c = ' ') →
    List.Chain' wsChainR l →
    collapseWs l = l := by
  intro l
  induction l using collapseWs.induct with
  | case1 => intro _ _; rfl
  | case2 c hc =>
      intro hs _
      have h1 : c = ' ' := hs c (by simp) hc
      subst h1
      rfl
  | case3 c hc =>
      intro _ _
      simp [collapseWs, hc]
  | case4 c1 c2 rest h ih =>
      intro _ hch
      exfalso
      simp only [Bool.and_eq_true] at h
      rcases (List.chain'_cons.mp hch).1 with hr | hr
      · rw [h.1] at hr; exact absurd hr (by decide)
      · rw [h.2] at hr; exact absurd hr (by decide)
  | case5 c1 c2 rest h ih =>
      intro hs hch
      rw [collapseWs, if_neg h,
        ih (fun c hc hw => hs c (List.mem_cons_of_mem _ hc) hw)
          (List.chain'_cons.mp hch).2]
      by_cases hw1 : rustIsWhitespace c1 = true
      · rw [if_pos hw1, hs c1 (by simp) hw1]
      · rw [if_neg hw1]

theorem map_newline_eq_self (l : List Char)
    (hs : ∀ c ∈ l, rustIsWhitespace c = true → c = ' ') :
    l.map (fun c => if c = '\n' then ' ' else c) = l := by
  induction l with
  | nil => rfl
  | cons a as ih =>
      have h1 : (if a = '\n' then ' ' else a) = a := by
        by_cases ha : a = '\n'
        · subst ha
          exact absurd (hs '\n' (by simp) (by decide)) (by decide)
        · rw [if_neg ha]
      rw [List.map_cons, h1, ih (fun c hc hw => hs c (List.mem_cons_of_mem _ hc) hw)]

theorem cleanList_idempotent (l : List Char) : cleanList (cleanList l) = cleanList l := by
  have hsX := collapseWs_wsOnlySpace (l.map fun c => if c = '\n' then ' ' else c)
  have hchX := collapseWs_chain (l.map fun c => if c = '\n' then ' ' else c)
  have hsub2 : List.Sublist (cleanList l)
      (trimLeft (collapseWs (l.map fun c => if c = '\n' then ' ' else c))) :=
    trimRight_sublist _
  have hsy : ∀ c ∈ cleanList l, rustIsWhitespace c = true → c = ' ' :=
    fun c hc => hsX c ((trimLeft_sublist _).subset (hsub2.subset hc))
  have hchy : List.Chain' wsChainR (cleanList l) :=
    List.Chain'.prefix (List.Chain'.suffix hchX (List.dropWhile_suffix _))
      (trimRight_prefix_self _)
  have hheady : ∀ c ∈ (cleanList l).head?, rustIsWhitespace c = false :=
    head_not_ws_mono (trimRight_prefix_self _) (trimLeft_head_not_ws _)
  have hlasty : ∀ c ∈ (cleanList l).getLast?, rustIsWhitespace c = false :=
    trimRight_last_not_ws _
  show cleanList (cleanList l) = cleanList l
  rw [cleanList, map_newline_eq_self _ hsy, collapseWs_eq_self _ hsy hchy,
    trimLeft_eq_self _ hheady, trimRight_eq_self _ hlasty]

/-- C10: text normalisation is idempotent — normalising an
already-normalised string returns it unchanged. -/
theorem clean_text_idempotent (x : String) :
    clean_text (clean_text x) = clean_text x := by
  show String.mk (cleanList (String.mk (cleanList x.data)).data)
      = String.mk (cleanList x.data)
  rw [show (String.mk (cleanList x.data)).data = cleanList x.data from rfl,
    cleanList_idempotent]

end WebToJson
